import Mathlib

/-!
Verification of the seek-tune acoustic-fingerprinting engine.

This file gives a shallow embedding of the core of the `shazam` Go package
(`fingerprint.go`, `spectrogram.go`, `config.go`) and of the indexing driver
`processAndSave`, and proves the specified properties about it.

Modelling conventions:
* Go `float64` values are modelled as `ℚ`.  Every floating-point computation
  the verified claims touch is exact over the rationals (finite sums, products
  and divisions of decimal literals), so the rational model agrees with the
  `float64` evaluation at every concrete input used below.
* Go `uint32(f)` conversion (truncation toward zero) is modelled by
  `Int.toNat ∘ Int.floor`; the two agree for values in `[0, 2^32)`, which is
  the domain on which Go defines the conversion.
* Go slices are Lean lists, Go `int` sizes and indices are `ℕ`, and the
  sample-rate arguments of `Downsample` (which the code explicitly validates
  for non-positivity) are `ℤ`.
* Go `map[uint32]models.Couple` is an association list with unique keys kept
  by an update-or-append operation (`upsert`), matching last-writer-wins.
* Fallible Go functions returning `(T, error)` become `Option`/`Except`.
* The `FFT` helper and the Hann window coefficients use transcendental
  constants (`cos`, `π`) and are not computable over `ℚ`; the spectrogram
  frame loop is therefore parametrised by the per-frame transform and the
  window vector.  Every property proved about the frame loop is independent
  of these parameters.
-/

namespace SeekTune

/-- Field widths of the packed fingerprint address (`fingerprint.go`). -/
def maxFreqBits : ℕ := 9

/-- Width of the time-delta field of the packed address (`fingerprint.go`). -/
def maxDeltaBits : ℕ := 14

/-- A spectrogram peak: frequency in Hz and time in seconds
(`spectrogram.go`, type `Peak`). -/
structure Peak where
  Freq : ℚ
  Time : ℚ
deriving DecidableEq, Repr

/-- Value stored under a fingerprint address: anchor time in ms and the song
id (`models.Couple`). -/
structure Couple where
  AnchorTimeMs : ℕ
  SongID : ℕ
deriving DecidableEq, Repr

/-- Go `uint32(f)` applied to a `float64`: truncation toward zero.  Exact for
values in `[0, 2^32)`; Go leaves the conversion unspecified outside that
range, and no verified claim leaves it. -/
def f64ToU32 (q : ℚ) : ℕ := (Int.floor q).toNat

/-- Translation of `createAddress` (`fingerprint.go` lines 40-50): two 9-bit
frequency bins and a 14-bit millisecond delta packed into one 32-bit word. -/
def createAddress (anchor target : Peak) : ℕ :=
  let anchorFreqBin := f64ToU32 (anchor.Freq / 10)
  let targetFreqBin := f64ToU32 (target.Freq / 10)
  let deltaMsRaw := f64ToU32 ((target.Time - anchor.Time) * 1000)
  let anchorFreqBits := anchorFreqBin &&& ((1 <<< maxFreqBits) - 1)
  let targetFreqBits := targetFreqBin &&& ((1 <<< maxFreqBits) - 1)
  let deltaBits := deltaMsRaw &&& ((1 <<< maxDeltaBits) - 1)
  (anchorFreqBits <<< 23) ||| (targetFreqBits <<< 14) ||| deltaBits

/-- Decoder for bits 31..23 of an address (spec §3 bit layout). -/
def addrAnchorBin (a : ℕ) : ℕ := (a >>> 23) &&& (2 ^ 9 - 1)

/-- Decoder for bits 22..14 of an address (spec §3 bit layout). -/
def addrTargetBin (a : ℕ) : ℕ := (a >>> 14) &&& (2 ^ 9 - 1)

/-- Decoder for bits 13..0 of an address (spec §3 bit layout). -/
def addrDelta (a : ℕ) : ℕ := a &&& (2 ^ 14 - 1)

/-! Bridging lemmas between the bitwise operations of the source and plain
modular arithmetic. -/

/-- Or-ing a multiple of `2 ^ k` with a value below `2 ^ k` is addition. -/
lemma mul_pow_lor_eq_add (a b k : ℕ) (hb : b < 2 ^ k) :
    (a * 2 ^ k) ||| b = a * 2 ^ k + b := by
  induction k generalizing a b with
  | zero =>
    interval_cases b
    simp
  | succ k ih =>
    have hdiv : Nat.div2 b < 2 ^ k := by
      rw [Nat.div2_val]
      omega
    have hstep : (a * 2 ^ (k + 1)) ||| b =
        Nat.bit (false || Nat.bodd b) ((a * 2 ^ k) ||| Nat.div2 b) := by
      conv_lhs => rw [← Nat.bit_decomp b]
      rw [show a * 2 ^ (k + 1) = Nat.bit false (a * 2 ^ k) by
            rw [Nat.bit_val]
            simp only [Bool.toNat_false, Nat.add_zero]
            ring,
          Nat.lor_bit]
    rw [hstep, ih a _ hdiv, Bool.false_or, Nat.bit_val, Nat.div2_val,
        ← Nat.mod_two_of_bodd]
    have hpow : a * 2 ^ (k + 1) = 2 * (a * 2 ^ k) := by ring
    rw [hpow]
    omega

/-- The address packer in pure arithmetic form: fields are reduced modulo
their widths and placed at bit offsets 23, 14 and 0. -/
lemma createAddress_eq (anchor target : Peak) :
    createAddress anchor target =
      (f64ToU32 (anchor.Freq / 10) % 2 ^ 9) * 2 ^ 23 +
        (f64ToU32 (target.Freq / 10) % 2 ^ 9) * 2 ^ 14 +
        f64ToU32 ((target.Time - anchor.Time) * 1000) % 2 ^ 14 := by
  unfold createAddress maxFreqBits maxDeltaBits
  simp only [Nat.shiftLeft_eq, one_mul, Nat.and_pow_two_sub_one_eq_mod]
  set x := f64ToU32 (anchor.Freq / 10) % 2 ^ 9 with hx
  set y := f64ToU32 (target.Freq / 10) % 2 ^ 9 with hy
  set z := f64ToU32 ((target.Time - anchor.Time) * 1000) % 2 ^ 14 with hz
  have hxlt : x < 2 ^ 9 := Nat.mod_lt _ (by norm_num)
  have hylt : y < 2 ^ 9 := Nat.mod_lt _ (by norm_num)
  have hzlt : z < 2 ^ 14 := Nat.mod_lt _ (by norm_num)
  have hy23 : y * 2 ^ 14 < 2 ^ 23 := by
    have : y * 2 ^ 14 < 2 ^ 9 * 2 ^ 14 := by
      exact Nat.mul_lt_mul_of_lt_of_le hylt (le_refl _) (by norm_num)
    calc y * 2 ^ 14 < 2 ^ 9 * 2 ^ 14 := this
      _ = 2 ^ 23 := by norm_num
  have h1 := mul_pow_lor_eq_add x (y * 2 ^ 14) 23 hy23
  rw [h1]
  have h2 : x * 2 ^ 23 + y * 2 ^ 14 = (x * 2 ^ 9 + y) * 2 ^ 14 := by ring
  rw [h2, mul_pow_lor_eq_add _ _ _ hzlt]

/-- Field values of the S1 scenario: anchor bin 44, target bin 88, delta 250 ms. -/
lemma createAddress_S1_fields :
    createAddress ⟨443.2, 1⟩ ⟨880, 1.25⟩ = 44 * 2 ^ 23 + 88 * 2 ^ 14 + 250 := by
  rw [createAddress_eq]
  have ha : f64ToU32 ((443.2 : ℚ) / 10) = 44 := by
    unfold f64ToU32
    norm_num
    decide
  have hb : f64ToU32 ((880 : ℚ) / 10) = 88 := by
    unfold f64ToU32
    norm_num
    decide
  have hc : f64ToU32 (((1.25 : ℚ) - 1) * 1000) = 250 := by
    unfold f64ToU32
    norm_num
    decide
  simp only [ha, hb, hc]
  decide

/-- C1 (counterexample): the claimed numeric address value `369,999,610` is not
what `createAddress` returns on the S1 peaks. -/
theorem claim1_counterexample :
    createAddress ⟨443.2, 1⟩ ⟨880, 1.25⟩ ≠ 369999610 := by
  rw [createAddress_S1_fields]
  decide

/-- C1 (amended): for the anchor peak (freq 443.2 Hz, time 1.000 s) and target
peak (freq 880.0 Hz, time 1.250 s), `createAddress` produces anchor bin 44,
target bin 88, delta 250 ms, and the packed 32-bit address equals
`(44 <<< 23) ||| (88 <<< 14) ||| 250 = 370540794` (the spec's evaluation of
that expression to 369,999,610 is an arithmetic slip). -/
theorem claim1_address_packing :
    createAddress ⟨443.2, 1⟩ ⟨880, 1.25⟩ = 370540794 ∧
    addrAnchorBin 370540794 = 44 ∧
    addrTargetBin 370540794 = 88 ∧
    addrDelta 370540794 = 250 ∧
    (44 <<< 23) ||| (88 <<< 14) ||| 250 = 370540794 := by
  refine ⟨?_, by decide, by decide, by decide, by decide⟩
  rw [createAddress_S1_fields]
  decide

/-! Chunked driver (`FingerprintAudioChunked`, `fingerprint.go` lines 67-87):
chunk duration selection and step computation. -/

/-- Chunk duration actually used: a non-positive `ChunkDurationSec` is
replaced by the total file duration (`fingerprint.go` lines 69-72). -/
def chunkDurOf (chunkDurationSec duration : ℚ) : ℚ :=
  if chunkDurationSec ≤ 0 then duration else chunkDurationSec

/-- Step between successive chunk start times: a 5 second overlap is
subtracted from the chunk duration unless that would make the step
non-positive (`fingerprint.go` lines 74-78). -/
def stepOf (chunkDur : ℚ) : ℚ :=
  let step := chunkDur - 5
  if step ≤ 0 then chunkDur else step

/-- Chunk start times produced by the driver loop
`for start := 0.0; start < duration; start += step` (`fingerprint.go`
line 81), with explicit fuel bounding the number of iterations. -/
def chunkStarts (duration step : ℚ) : ℕ → ℚ → List ℚ
  | 0, _ => []
  | fuel + 1, start =>
    if start < duration then start :: chunkStarts duration step fuel (start + step) else []

/-- Closed form of the driver loop: the i-th chunk start is `start + i·step`. -/
lemma chunkStarts_getD (duration step : ℚ) :
    ∀ (fuel : ℕ) (start : ℚ) (i : ℕ),
      i < (chunkStarts duration step fuel start).length →
      (chunkStarts duration step fuel start).getD i 0 = start + i * step := by
  intro fuel
  induction fuel with
  | zero =>
    intro start i h
    simp [chunkStarts] at h
  | succ fuel ih =>
    intro start i h
    simp only [chunkStarts] at h ⊢
    by_cases hlt : start < duration
    · simp only [if_pos hlt] at h ⊢
      match i with
      | 0 => simp
      | i + 1 =>
        simp only [List.length_cons] at h
        have := ih (start + step) i (by omega)
        simp only [List.getD_cons_succ]
        rw [this]
        push_cast
        ring
    · simp [if_neg hlt] at h

/-- Successive entries of the chunk-start list differ by exactly the step. -/
lemma chunkStarts_succ_sub (duration step : ℚ) (fuel : ℕ) (start : ℚ) (i : ℕ)
    (h : i + 1 < (chunkStarts duration step fuel start).length) :
    (chunkStarts duration step fuel start).getD (i + 1) 0 -
      (chunkStarts duration step fuel start).getD i 0 = step := by
  rw [chunkStarts_getD duration step fuel start (i + 1) h,
      chunkStarts_getD duration step fuel start i (by omega)]
  push_cast
  ring

/-- C2 (counterexample): with total duration 200 s and chunk duration 120 s
the driver's chunk starts are 0 s and 115 s, a step of 115 s, while the
claim's formula `max (C - O) C` predicts 120 s. -/
theorem claim2_counterexample :
    (chunkStarts 200 (stepOf (chunkDurOf 120 200)) 10 0).getD 1 0 -
      (chunkStarts 200 (stepOf (chunkDurOf 120 200)) 10 0).getD 0 0 = 115 ∧
    (115 : ℚ) ≠ max (120 - 5) 120 := by
  constructor
  · norm_num [chunkDurOf, stepOf, chunkStarts]
  · norm_num

/-- C2 (amended): in the chunked driver, for every positive chunk duration
`C` (with `C = 0` replaced by the total duration `D`) the step between
successive chunk start times is `S = C - O` when `C - O > 0` (overlap
`O = 5` seconds) and `S = C` otherwise, i.e. when `C ≤ O` no overlap is
applied. -/
theorem claim2_chunk_step (chunkDurationSec duration : ℚ)
    (hC : 0 < chunkDurationSec) :
    (∀ (fuel : ℕ) (i : ℕ),
      i + 1 < (chunkStarts duration (stepOf (chunkDurOf chunkDurationSec duration)) fuel 0).length →
      (chunkStarts duration (stepOf (chunkDurOf chunkDurationSec duration)) fuel 0).getD (i + 1) 0 -
        (chunkStarts duration (stepOf (chunkDurOf chunkDurationSec duration)) fuel 0).getD i 0 =
        stepOf (chunkDurOf chunkDurationSec duration)) ∧
    chunkDurOf chunkDurationSec duration = chunkDurationSec ∧
    (5 < chunkDurationSec →
      stepOf (chunkDurOf chunkDurationSec duration) = chunkDurationSec - 5) ∧
    (chunkDurationSec ≤ 5 →
      stepOf (chunkDurOf chunkDurationSec duration) = chunkDurationSec) := by
  have hdur : chunkDurOf chunkDurationSec duration = chunkDurationSec := by
    unfold chunkDurOf
    rw [if_neg (by linarith)]
  refine ⟨fun fuel i h => chunkStarts_succ_sub _ _ fuel 0 i h, hdur, ?_, ?_⟩
  · intro h5
    rw [hdur]
    unfold stepOf
    rw [if_neg (by linarith)]
  · intro h5
    rw [hdur]
    unfold stepOf
    rw [if_pos (by linarith)]

/-- C2 witness: the amended step characterisation instantiated at chunk
duration 120 s and total duration 200 s (the audiobook-scale scenario). -/
theorem claim2_witness :
    (0 : ℚ) < 120 ∧
    (stepOf (chunkDurOf 120 200) = 120 - 5 ∧
      (chunkStarts 200 (stepOf (chunkDurOf 120 200)) 10 0).getD 1 0 -
        (chunkStarts 200 (stepOf (chunkDurOf 120 200)) 10 0).getD 0 0 =
        stepOf (chunkDurOf 120 200)) := by
  have h := claim2_chunk_step 120 200 (by norm_num)
  refine ⟨by norm_num, h.2.2.1 (by norm_num), h.1 10 0 ?_⟩
  norm_num [chunkDurOf, stepOf, chunkStarts]

/-! Downsampler (`Downsample`, `spectrogram.go` lines 74-102). -/

/-- Bucket loop of `Downsample`: the input is consumed `r` samples at a time
and each bucket is replaced by its arithmetic mean (the final bucket may be
shorter).  Matches the loop `for i := 0; i < len(input); i += ratio`. -/
def bucketMeans (r : ℕ) : List ℚ → List ℚ
  | [] => []
  | x :: xs =>
    (((x :: xs).take r).sum / (((x :: xs).take r).length : ℚ)) ::
      bucketMeans r (xs.drop (r - 1))
termination_by l => l.length
decreasing_by
  simp only [List.length_drop, List.length_cons]
  omega

/-- Translation of `Downsample` (`spectrogram.go` lines 74-102): validation of
the sample rates, integer decimation ratio via Go's truncating division, then
the bucket-mean loop.  `none` models the Go `error` returns. -/
def Downsample (input : List ℚ) (originalSampleRate targetSampleRate : ℤ) :
    Option (List ℚ) :=
  if targetSampleRate ≤ 0 ∨ originalSampleRate ≤ 0 then none
  else if originalSampleRate < targetSampleRate then none
  else
    let ratio := originalSampleRate.tdiv targetSampleRate
    if ratio ≤ 0 then none
    else some (bucketMeans ratio.toNat input)

/-- Go's truncating integer division agrees with Euclidean division on
positive operands. -/
lemma tdiv_eq_ediv_of_pos (a b : ℤ) (ha : 0 ≤ a) (hb : 0 ≤ b) :
    a.tdiv b = a / b := by
  obtain ⟨m, rfl⟩ := Int.eq_ofNat_of_zero_le ha
  obtain ⟨n, rfl⟩ := Int.eq_ofNat_of_zero_le hb
  rw [← Int.ofNat_div]
  rfl

/-- The decimation ratio is at least one when `0 < target ≤ original`. -/
lemma tdiv_ratio_pos (orig target : ℤ) (h1 : 0 < target) (h2 : target ≤ orig) :
    0 < orig.tdiv target := by
  rw [tdiv_eq_ediv_of_pos orig target (by omega) (by omega)]
  have : (1 : ℤ) ≤ orig / target := by
    rw [Int.le_ediv_iff_mul_le h1]
    omega
  omega

/-- Number of buckets: the ceiling `⌈len / r⌉`. -/
lemma bucketMeans_length (r : ℕ) (hr : 1 ≤ r) :
    ∀ l : List ℚ, (bucketMeans r l).length = (l.length + r - 1) / r := by
  intro l
  induction l using bucketMeans.induct r with
  | case1 =>
    have h0 : (r - 1) / r = 0 := Nat.div_eq_of_lt (by omega)
    simp [bucketMeans, h0]
  | case2 x xs ih =>
    rw [bucketMeans]
    simp only [List.length_cons, List.length_drop] at ih ⊢
    rw [ih]
    rcases le_or_lt (r - 1) xs.length with hle | hlt
    · have h1 : xs.length - (r - 1) + r - 1 = xs.length := by omega
      rw [h1]
      have h2 : xs.length + 1 + r - 1 = xs.length + r := by omega
      rw [h2, Nat.add_div_right _ (by omega)]
    · have h1 : xs.length - (r - 1) = 0 := by omega
      rw [h1]
      have h2 : (0 + r - 1) / r = 0 := Nat.div_eq_of_lt (by omega)
      rw [h2]
      have h3 : xs.length + 1 + r - 1 = xs.length + r := by omega
      rw [h3, Nat.add_div_right _ (by omega), Nat.div_eq_of_lt (by omega)]

/-- The i-th output of the bucket loop is the mean of input samples
`[i·r, (i+1)·r)`. -/
lemma bucketMeans_get (r : ℕ) (hr : 1 ≤ r) :
    ∀ (i : ℕ) (l : List ℚ), i * r < l.length →
      (bucketMeans r l).get? i =
        some (((l.drop (i * r)).take r).sum /
          (((l.drop (i * r)).take r).length : ℚ)) := by
  intro i
  induction i with
  | zero =>
    intro l h
    match l with
    | [] => simp at h
    | x :: xs =>
      rw [bucketMeans]
      simp
  | succ i ih =>
    intro l h
    match l with
    | [] => simp at h
    | x :: xs =>
      rw [bucketMeans]
      simp only [List.get?_cons_succ]
      have hmul : (i + 1) * r = i * r + r := by ring
      have hlen : i * r < (xs.drop (r - 1)).length := by
        simp only [List.length_drop]
        simp only [List.length_cons] at h
        omega
      rw [ih (xs.drop (r - 1)) hlen]
      have hdrop : (xs.drop (r - 1)).drop (i * r) = (x :: xs).drop ((i + 1) * r) := by
        rw [List.drop_drop]
        have heq : (i + 1) * r = (r - 1 + i * r) + 1 := by omega
        rw [heq, List.drop_succ_cons]
      rw [hdrop]

/-- C5: for every input list and positive sample rates with
`target ≤ original`, `Downsample` succeeds and returns the sequence of
arithmetic means of the consecutive buckets `[i·r, (i+1)·r)` of the input,
`r = ⌊original / target⌋`, with `⌈len / r⌉` buckets in total, the last bucket
allowed to be shorter; in particular input `[1,2,3,4,5,6,7]` at ratio 3
yields `[2, 5, 7]`. -/
theorem claim5_downsample_means :
    (∀ (input : List ℚ) (orig target : ℤ), 0 < target → target ≤ orig →
      ∃ out, Downsample input orig target = some out ∧
        out.length = (input.length + (orig.tdiv target).toNat - 1) /
          (orig.tdiv target).toNat ∧
        ∀ i : ℕ, i * (orig.tdiv target).toNat < input.length →
          out.get? i =
            some (((input.drop (i * (orig.tdiv target).toNat)).take
                (orig.tdiv target).toNat).sum /
              (((input.drop (i * (orig.tdiv target).toNat)).take
                (orig.tdiv target).toNat).length : ℚ))) ∧
    Downsample [1, 2, 3, 4, 5, 6, 7] 3 1 = some [2, 5, 7] := by
  constructor
  · intro input orig target h1 h2
    have hratio := tdiv_ratio_pos orig target h1 h2
    have hr1 : 1 ≤ (orig.tdiv target).toNat := by omega
    refine ⟨bucketMeans (orig.tdiv target).toNat input, ?_, ?_, ?_⟩
    · unfold Downsample
      rw [if_neg (by omega), if_neg (by omega), if_neg (by omega)]
    · exact bucketMeans_length _ hr1 input
    · intro i hi
      exact bucketMeans_get _ hr1 i input hi
  · have h3 : Int.tdiv 3 1 = 3 := by decide
    have h4 : (Int.tdiv 3 1).toNat = 3 := by decide
    unfold Downsample
    rw [if_neg (by norm_num), if_neg (by norm_num), if_neg (by rw [h3]; norm_num), h4]
    norm_num [bucketMeans]

/-- C5 witness: the general bucket-mean theorem instantiated at the S2
scenario input `[1,2,3,4,5,6,7]` with rates 3 and 1. -/
theorem claim5_witness :
    (0 : ℤ) < 1 ∧ (1 : ℤ) ≤ 3 ∧
    (∃ out, Downsample [1, 2, 3, 4, 5, 6, 7] 3 1 = some out ∧
      out.length = (7 + (Int.tdiv 3 1).toNat - 1) / (Int.tdiv 3 1).toNat ∧
      ∀ i : ℕ, i * (Int.tdiv 3 1).toNat < 7 →
        out.get? i =
          some ((([1, 2, 3, 4, 5, 6, 7].drop (i * (Int.tdiv 3 1).toNat)).take
              (Int.tdiv 3 1).toNat).sum /
            ((([(1 : ℚ), 2, 3, 4, 5, 6, 7].drop (i * (Int.tdiv 3 1).toNat)).take
              (Int.tdiv 3 1).toNat).length : ℚ))) := by
  refine ⟨by decide, by decide, ?_⟩
  have h := claim5_downsample_means.1 [1, 2, 3, 4, 5, 6, 7] 3 1
    (by decide) (by decide)
  simpa using h

/-! Spectrogram framing (`Spectrogram`, `spectrogram.go` lines 28-48).  The
loop `for start := 0; start+WindowSize <= len(downsampledSample); start +=
HopSize` windows the downsampled signal and emits one magnitude row per
position.  The Hann window coefficients and the FFT-magnitude step involve
`cos` and `sqrt` and are passed in as parameters (`window`, `transform`);
the frame count does not depend on them. -/

/-- The frame loop of `Spectrogram`, with explicit fuel bounding the number
of iterations.  Each iteration takes the `WindowSize` samples starting at
`start`, multiplies them pointwise by the window, applies the per-frame
transform (FFT magnitudes of the first half in the source), and advances by
`HopSize`. -/
def frameLoop (transform : List ℚ → List ℚ) (window : List ℚ) (W H : ℕ)
    (ds : List ℚ) : ℕ → ℕ → List (List ℚ)
  | 0, _ => []
  | fuel + 1, start =>
    if start + W ≤ ds.length then
      transform (List.zipWith (· * ·) window ((ds.drop start).take W)) ::
        frameLoop transform window W H ds fuel (start + H)
    else []

/-- The framing stage of `Spectrogram` applied to the downsampled signal:
the fuel `ds.length + 1` dominates the iteration count for any positive
hop. -/
def spectrogramFrames (transform : List ℚ → List ℚ) (window : List ℚ)
    (W H : ℕ) (ds : List ℚ) : List (List ℚ) :=
  frameLoop transform window W H ds (ds.length + 1) 0

/-- Count of the frame loop from an arbitrary start position. -/
lemma frameLoop_length (transform : List ℚ → List ℚ) (window : List ℚ)
    (W H : ℕ) (ds : List ℚ) (hH : 1 ≤ H) :
    ∀ (fuel start : ℕ), ds.length < start + fuel →
      (frameLoop transform window W H ds fuel start).length =
        if start + W ≤ ds.length then (ds.length - W - start) / H + 1 else 0 := by
  intro fuel
  induction fuel with
  | zero =>
    intro start hfuel
    rw [if_neg (by omega)]
    simp [frameLoop]
  | succ fuel ih =>
    intro start hfuel
    simp only [frameLoop]
    by_cases hin : start + W ≤ ds.length
    · rw [if_pos hin, if_pos hin]
      simp only [List.length_cons]
      rw [ih (start + H) (by omega)]
      by_cases hin2 : start + H + W ≤ ds.length
      · rw [if_pos hin2]
        have hle : H ≤ ds.length - W - start := by omega
        rw [Nat.div_eq_sub_div (by omega) hle]
        have harg : ds.length - W - start - H = ds.length - W - (start + H) := by
          omega
        rw [harg]
      · rw [if_neg hin2]
        have : (ds.length - W - start) / H = 0 := Nat.div_eq_of_lt (by omega)
        omega
    · rw [if_neg hin, if_neg hin]
      simp

/-- C3: for every per-frame transform and window, every `WindowSize ≥ 1` and
`HopSize ≥ 1`, and every downsampled input of length `len`, the spectrogram
frame loop produces exactly `(len - WindowSize) / HopSize + 1` frames when
`len ≥ WindowSize` and `0` frames when `len < WindowSize`. -/
theorem claim3_frame_count (transform : List ℚ → List ℚ) (window : List ℚ)
    (W H : ℕ) (ds : List ℚ) (hW : 1 ≤ W) (hH : 1 ≤ H) :
    (spectrogramFrames transform window W H ds).length =
      if W ≤ ds.length then (ds.length - W) / H + 1 else 0 := by
  unfold spectrogramFrames
  rw [frameLoop_length transform window W H ds hH (ds.length + 1) 0 (by omega)]
  simp

/-- C3 witness: the frame-count formula instantiated with the identity
transform, window size 2, hop 1 and a three-sample input: two frames. -/
theorem claim3_witness :
    (1 : ℕ) ≤ 2 ∧ (1 : ℕ) ≤ 1 ∧
    (spectrogramFrames (fun l => l) [1, 1] 2 1 [5, 6, 7]).length =
      if 2 ≤ ([(5 : ℚ), 6, 7] : List ℚ).length then
        (([(5 : ℚ), 6, 7] : List ℚ).length - 2) / 1 + 1
      else 0 :=
  ⟨by decide, by decide,
    claim3_frame_count (fun l => l) [1, 1] 2 1 [5, 6, 7] (by decide) (by decide)⟩

/-! Fingerprint generation (`Fingerprint`, `fingerprint.go` lines 23-38). -/

/-- Tunable parameters of the pipeline (`config.go`, type
`FingerprintConfig`). -/
structure FingerprintConfig where
  DSPRatio : ℕ
  WindowSize : ℕ
  HopSize : ℕ
  MaxFreqHz : ℚ
  TargetZoneSize : ℕ
  FreqBands : List (ℕ × ℕ)
  ChunkDurationSec : ℚ

/-- Insertion into the Go `map[uint32]models.Couple`: an existing key is
overwritten in place, a new key is appended.  Keys stay unique. -/
def upsert (m : List (ℕ × Couple)) (k : ℕ) (v : Couple) : List (ℕ × Couple) :=
  if m.any (fun e => e.1 == k) then
    m.map (fun e => if e.1 == k then (k, v) else e)
  else m ++ [(k, v)]

/-- Indices visited by the inner loop
`for j := i + 1; j < len(peaks) && j <= i+cfg.TargetZoneSize; j++`:
exactly the `j` with `i + 1 ≤ j`, `j < len` and `j ≤ i + Z`. -/
def targetIndices (i len Z : ℕ) : List ℕ :=
  List.range' (i + 1) (min (i + Z + 1) len - (i + 1))

/-- Translation of `Fingerprint` (`fingerprint.go` lines 23-38): every anchor
index is paired with the following `TargetZoneSize` peak indices and the
address/couple pairs are collected into the map. -/
def Fingerprint (peaks : List Peak) (songID : ℕ) (cfg : FingerprintConfig) :
    List (ℕ × Couple) :=
  (List.range peaks.length).foldl
    (fun m i =>
      (targetIndices i peaks.length cfg.TargetZoneSize).foldl
        (fun acc j =>
          upsert acc
            (createAddress (peaks.getD i ⟨0, 0⟩) (peaks.getD j ⟨0, 0⟩))
            ⟨f64ToU32 ((peaks.getD i ⟨0, 0⟩).Time * 1000), songID⟩)
        m)
    []

/-- An upsert grows the map by at most one entry. -/
lemma upsert_length_le (m : List (ℕ × Couple)) (k : ℕ) (v : Couple) :
    (upsert m k v).length ≤ m.length + 1 := by
  unfold upsert
  by_cases h : m.any (fun e => e.1 == k)
  · rw [if_pos h]
    simp
  · rw [if_neg h]
    simp

/-- Folding a step that grows a list by at most `c` entries over `l` grows it
by at most `c * l.length`. -/
lemma foldl_length_le {α : Type} (step : List (ℕ × Couple) → α → List (ℕ × Couple))
    (c : ℕ) (hstep : ∀ m x, (step m x).length ≤ m.length + c) :
    ∀ (l : List α) (m : List (ℕ × Couple)),
      (l.foldl step m).length ≤ m.length + c * l.length := by
  intro l
  induction l with
  | nil =>
    intro m
    simp
  | cons x xs ih =>
    intro m
    simp only [List.foldl_cons, List.length_cons]
    calc (xs.foldl step (step m x)).length ≤ (step m x).length + c * xs.length :=
          ih (step m x)
      _ ≤ m.length + c + c * xs.length := by
          have := hstep m x
          omega
      _ = m.length + c * (xs.length + 1) := by ring

/-- The inner target zone holds at most `Z` indices. -/
lemma targetIndices_length_le (i len Z : ℕ) :
    (targetIndices i len Z).length ≤ Z := by
  unfold targetIndices
  rw [List.length_range']
  omega

/-- C9: the fingerprinter pairs each anchor index `i` only with target
indices `j` satisfying `i < j`, `j < len` and `j ≤ i + TargetZoneSize`
(that is, `j ∈ [i+1, min(i+Z, len-1)]`), so the fingerprint map holds at
most `peak_count · TargetZoneSize` entries. -/
theorem claim9_fingerprint_count (peaks : List Peak) (songID : ℕ)
    (cfg : FingerprintConfig) (hZ : 1 ≤ cfg.TargetZoneSize) :
    (Fingerprint peaks songID cfg).length ≤
      peaks.length * cfg.TargetZoneSize ∧
    ∀ i j : ℕ, j ∈ targetIndices i peaks.length cfg.TargetZoneSize ↔
      (i < j ∧ j < peaks.length ∧ j ≤ i + cfg.TargetZoneSize) := by
  constructor
  · unfold Fingerprint
    have houter : ∀ (m : List (ℕ × Couple)) (i : ℕ),
        (((targetIndices i peaks.length cfg.TargetZoneSize).foldl
          (fun acc j =>
            upsert acc
              (createAddress (peaks.getD i ⟨0, 0⟩) (peaks.getD j ⟨0, 0⟩))
              ⟨f64ToU32 ((peaks.getD i ⟨0, 0⟩).Time * 1000), songID⟩)
          m)).length ≤ m.length + cfg.TargetZoneSize := by
      intro m i
      calc (((targetIndices i peaks.length cfg.TargetZoneSize).foldl _ m)).length
          ≤ m.length + 1 * (targetIndices i peaks.length cfg.TargetZoneSize).length :=
            foldl_length_le _ 1 (fun m' j => upsert_length_le m' _ _) _ m
        _ ≤ m.length + cfg.TargetZoneSize := by
            have := targetIndices_length_le i peaks.length cfg.TargetZoneSize
            omega
    calc ((List.range peaks.length).foldl _ []).length
        ≤ ([] : List (ℕ × Couple)).length +
            cfg.TargetZoneSize * (List.range peaks.length).length :=
          foldl_length_le _ cfg.TargetZoneSize houter _ []
      _ = peaks.length * cfg.TargetZoneSize := by
          simp [Nat.mul_comm]
  · intro i j
    unfold targetIndices
    rw [List.mem_range'_1]
    omega

/-- C9 witness: the count bound instantiated on two concrete peaks with the
music preset target zone size 5: at most 10 map entries. -/
theorem claim9_witness :
    (1 : ℕ) ≤ 5 ∧
    (Fingerprint [⟨100, 0⟩, ⟨200, 1⟩] 7
        ⟨4, 1024, 512, 5000, 5, [(0, 10)], 300⟩).length ≤ 2 * 5 :=
  ⟨by decide,
    (claim9_fingerprint_count [⟨100, 0⟩, ⟨200, 1⟩] 7
      ⟨4, 1024, 512, 5000, 5, [(0, 10)], 300⟩ (by decide)).1⟩

/-! Peak extraction (`ExtractPeaks`, `spectrogram.go` lines 112-177). -/

/-- One step of the band scan `if frame[idx] > best.mag`: strictly larger
magnitudes replace the current best, ties keep the earlier index. -/
def bandStep (frame : List ℚ) (best : ℚ × ℕ) (idx : ℕ) : ℚ × ℕ :=
  if frame.getD idx 0 > best.1 then (frame.getD idx 0, idx) else best

/-- The `var best bandMax` loop over `[lo, hi)`: starts from the zero value
`(0, 0)` exactly as the Go zero-valued `bandMax` struct does. -/
def bestInBand (frame : List ℚ) (lo hi : ℕ) : ℚ × ℕ :=
  (List.range' lo (hi - lo)).foldl (bandStep frame) (0, 0)

/-- Per-frame band scan: each configured band is clamped to
`WindowSize/2` and the frame length, empty bands are skipped, and the
remaining bands contribute their `(max magnitude, bin index)` pair.  This
matches the parallel `maxMags` / `freqIndices` slices of the source. -/
def frameBandData (frame : List ℚ) (halfWindow : ℕ) (bands : List (ℕ × ℕ)) :
    List (ℚ × ℕ) :=
  bands.filterMap (fun b =>
    let hi := min (min b.2 halfWindow) frame.length
    if b.1 ≥ hi then none
    else some (bestInBand frame b.1 hi))

/-- Peaks emitted for one frame: bands whose collected maximum strictly
exceeds the mean of the frame's collected maxima, in band order
(`spectrogram.go` lines 141-173). -/
def framePeaks (frame : List ℚ) (frameIdx : ℕ) (frameDuration freqResolution : ℚ)
    (halfWindow : ℕ) (bands : List (ℕ × ℕ)) : List Peak :=
  let data := frameBandData frame halfWindow bands
  if data.length = 0 then []
  else
    let avg := (data.map Prod.fst).sum / (data.length : ℚ)
    (data.filter (fun d => decide (avg < d.1))).map (fun d =>
      { Time := (frameIdx : ℚ) * frameDuration,
        Freq := (d.2 : ℚ) * freqResolution })

/-- Translation of `ExtractPeaks` (`spectrogram.go` lines 112-177). -/
def ExtractPeaks (spectrogram : List (List ℚ)) (audioDuration : ℚ)
    (sampleRate : ℕ) (cfg : FingerprintConfig) : List Peak :=
  if spectrogram.length < 1 then []
  else
    let effectiveSampleRate : ℚ := (sampleRate : ℚ) / (cfg.DSPRatio : ℚ)
    let freqResolution := effectiveSampleRate / (cfg.WindowSize : ℚ)
    let frameDuration := audioDuration / (spectrogram.length : ℚ)
    let halfWindow := cfg.WindowSize / 2
    (List.range spectrogram.length).flatMap (fun frameIdx =>
      framePeaks (spectrogram.getD frameIdx []) frameIdx frameDuration
        freqResolution halfWindow cfg.FreqBands)

/-! Specification-side peak extraction, written from the words of spec §4.3
and claim C4: per band, find the single bin of maximum magnitude over the
band (the scan starts from the band's first bin, not from a zero
sentinel), then keep exactly the bands whose maximum strictly exceeds the
mean of the frame's collected band maxima. -/

/-- Maximum-magnitude bin of the non-empty band `[lo, hi)`: the scan starts
from the first bin of the band itself. -/
def specBandBest (frame : List ℚ) (lo hi : ℕ) : ℚ × ℕ :=
  (List.range' (lo + 1) (hi - (lo + 1))).foldl
    (fun best idx =>
      if frame.getD idx 0 > best.1 then (frame.getD idx 0, idx) else best)
    (frame.getD lo 0, lo)

/-- Spec-side per-frame band maxima with the same clamping as the claim:
bands clamped to `WindowSize/2` and the frame length, empty bands skipped. -/
def specFrameData (frame : List ℚ) (halfWindow : ℕ) (bands : List (ℕ × ℕ)) :
    List (ℚ × ℕ) :=
  bands.filterMap (fun b =>
    let hi := min (min b.2 halfWindow) frame.length
    if b.1 ≥ hi then none
    else some (specBandBest frame b.1 hi))

/-- Spec-side peaks of one frame: exactly one peak per processed band whose
maximum strictly exceeds the mean of the collected band maxima. -/
def specFramePeaks (frame : List ℚ) (frameIdx : ℕ)
    (frameDuration freqResolution : ℚ) (halfWindow : ℕ)
    (bands : List (ℕ × ℕ)) : List Peak :=
  let data := specFrameData frame halfWindow bands
  if data.length = 0 then []
  else
    let avg := (data.map Prod.fst).sum / (data.length : ℚ)
    (data.filter (fun d => decide (avg < d.1))).map (fun d =>
      { Time := (frameIdx : ℚ) * frameDuration,
        Freq := (d.2 : ℚ) * freqResolution })

/-- Spec-side peak extraction: empty spectrogram yields the empty list,
otherwise frames contribute in order. -/
def specExtractPeaks (spectrogram : List (List ℚ)) (audioDuration : ℚ)
    (sampleRate : ℕ) (cfg : FingerprintConfig) : List Peak :=
  if spectrogram.length < 1 then []
  else
    let effectiveSampleRate : ℚ := (sampleRate : ℚ) / (cfg.DSPRatio : ℚ)
    let freqResolution := effectiveSampleRate / (cfg.WindowSize : ℚ)
    let frameDuration := audioDuration / (spectrogram.length : ℚ)
    let halfWindow := cfg.WindowSize / 2
    (List.range spectrogram.length).flatMap (fun frameIdx =>
      specFramePeaks (spectrogram.getD frameIdx []) frameIdx frameDuration
        freqResolution halfWindow cfg.FreqBands)

/-! Relating the source band scan (zero-initialised fold) to the spec-side
band maximum, under non-negative magnitudes. -/

/-- An entry read out of a list of non-negative rationals (with default 0)
is non-negative. -/
lemma getD_nonneg (frame : List ℚ) (hnn : ∀ x ∈ frame, 0 ≤ x) (i : ℕ) :
    0 ≤ frame.getD i 0 := by
  rcases Nat.lt_or_ge i frame.length with h | h
  · exact hnn _ (List.getD_eq_getElem frame 0 h ▸ frame.getElem_mem h)
  · rw [List.getD_eq_default frame 0 h]

/-- The scan magnitude never drops below its initial value. -/
lemma foldl_bandStep_fst_le (frame : List ℚ) :
    ∀ (idxs : List ℕ) (init : ℚ × ℕ),
      init.1 ≤ (idxs.foldl (bandStep frame) init).1 := by
  intro idxs
  induction idxs with
  | nil =>
    intro init
    exact le_refl _
  | cons idx idxs ih =>
    intro init
    simp only [List.foldl_cons]
    refine le_trans ?_ (ih (bandStep frame init idx))
    unfold bandStep
    by_cases h : frame.getD idx 0 > init.1
    · rw [if_pos h]
      exact le_of_lt h
    · rw [if_neg h]

/-- Scans started from states with equal magnitude end with equal magnitude,
and end in equal states unless neither scan ever updated. -/
lemma foldl_bandStep_rel (frame : List ℚ) :
    ∀ (idxs : List ℕ) (a b : ℚ × ℕ), a.1 = b.1 →
      (idxs.foldl (bandStep frame) a).1 = (idxs.foldl (bandStep frame) b).1 ∧
      (idxs.foldl (bandStep frame) a = idxs.foldl (bandStep frame) b ∨
        (idxs.foldl (bandStep frame) a = a ∧ idxs.foldl (bandStep frame) b = b)) := by
  intro idxs
  induction idxs with
  | nil =>
    intro a b h
    exact ⟨h, Or.inr ⟨rfl, rfl⟩⟩
  | cons idx idxs ih =>
    intro a b h
    simp only [List.foldl_cons]
    by_cases hgt : frame.getD idx 0 > a.1
    · have hstep : bandStep frame a idx = bandStep frame b idx := by
        unfold bandStep
        rw [if_pos hgt, if_pos (h ▸ hgt)]
      rw [hstep]
      exact ⟨rfl, Or.inl rfl⟩
    · have ha : bandStep frame a idx = a := by
        unfold bandStep
        rw [if_neg hgt]
      have hb : bandStep frame b idx = b := by
        unfold bandStep
        rw [if_neg (h ▸ hgt)]
      rw [ha, hb]
      exact ih a b h

/-- The source scan agrees with the spec-side band maximum: the magnitudes
always coincide, and the full states coincide whenever the magnitude is
positive (only the degenerate all-zero band can disagree, and only in the
reported index). -/
lemma bestInBand_rel (frame : List ℚ) (lo hi : ℕ)
    (hnn : ∀ x ∈ frame, 0 ≤ x) (hlo : lo < hi) :
    (bestInBand frame lo hi).1 = (specBandBest frame lo hi).1 ∧
    (0 < (bestInBand frame lo hi).1 →
      bestInBand frame lo hi = specBandBest frame lo hi) := by
  have hspec : specBandBest frame lo hi =
      (List.range' (lo + 1) (hi - (lo + 1))).foldl (bandStep frame)
        (frame.getD lo 0, lo) := rfl
  have hrange : List.range' lo (hi - lo) =
      lo :: List.range' (lo + 1) (hi - (lo + 1)) := by
    have h1 : hi - lo = (hi - (lo + 1)) + 1 := by omega
    rw [h1, List.range'_succ]
  have hbest : bestInBand frame lo hi =
      (List.range' (lo + 1) (hi - (lo + 1))).foldl (bandStep frame)
        (bandStep frame (0, 0) lo) := by
    unfold bestInBand
    rw [hrange, List.foldl_cons]
  by_cases h0 : frame.getD lo 0 > 0
  · have hinit : bandStep frame (0, 0) lo = (frame.getD lo 0, lo) := by
      unfold bandStep
      rw [if_pos h0]
    rw [hbest, hspec, hinit]
    exact ⟨rfl, fun _ => rfl⟩
  · have hz : frame.getD lo 0 = 0 :=
      le_antisymm (not_lt.mp h0) (getD_nonneg frame hnn lo)
    have hinit : bandStep frame (0, 0) lo = (0, 0) := by
      unfold bandStep
      rw [if_neg h0]
    have hrel := foldl_bandStep_rel frame (List.range' (lo + 1) (hi - (lo + 1)))
      (0, 0) (frame.getD lo 0, lo) hz.symm
    rw [hbest, hspec, hinit]
    refine ⟨hrel.1, fun hpos => ?_⟩
    rcases hrel.2 with heq | ⟨ha, hb⟩
    · exact heq
    · rw [ha] at hpos
      simp at hpos

/-- Collected band maxima are non-negative. -/
lemma bestInBand_fst_nonneg (frame : List ℚ) (lo hi : ℕ) :
    0 ≤ (bestInBand frame lo hi).1 :=
  foldl_bandStep_fst_le frame _ (0, 0)

/-- The index reported by the band scan stays below the clamped upper
bound. -/
lemma foldl_bandStep_snd_lt (frame : List ℚ) (hi : ℕ) :
    ∀ (idxs : List ℕ) (init : ℚ × ℕ), init.2 < hi →
      (∀ i ∈ idxs, i < hi) → (idxs.foldl (bandStep frame) init).2 < hi := by
  intro idxs
  induction idxs with
  | nil =>
    intro init h _
    exact h
  | cons idx idxs ih =>
    intro init h hall
    simp only [List.foldl_cons]
    refine ih (bandStep frame init idx) ?_ (fun i hi2 => hall i (by simp [hi2]))
    unfold bandStep
    by_cases hgt : frame.getD idx 0 > init.1
    · rw [if_pos hgt]
      exact hall idx (by simp)
    · rw [if_neg hgt]
      exact h

/-- Every entry of the per-frame band data comes from a clamped non-empty
band: its magnitude is non-negative and its bin index is below both the
half-window and the frame length. -/
lemma frameBandData_mem (frame : List ℚ) (halfWindow : ℕ)
    (bands : List (ℕ × ℕ)) (d : ℚ × ℕ)
    (hd : d ∈ frameBandData frame halfWindow bands) :
    0 ≤ d.1 ∧ d.2 < halfWindow ∧ d.2 < frame.length := by
  unfold frameBandData at hd
  rw [List.mem_filterMap] at hd
  obtain ⟨b, _, hb⟩ := hd
  by_cases hskip : b.1 ≥ min (min b.2 halfWindow) frame.length
  · rw [if_pos hskip] at hb
    exact absurd hb (by simp)
  · rw [if_neg hskip] at hb
    have hback := Option.some.inj hb
    have hhi : 0 < min (min b.2 halfWindow) frame.length := by omega
    have hsnd : (bestInBand frame b.1 (min (min b.2 halfWindow) frame.length)).2 <
        min (min b.2 halfWindow) frame.length := by
      apply foldl_bandStep_snd_lt frame _ _ (0, 0) hhi
      intro i hi2
      rw [List.mem_range'_1] at hi2
      omega
    rw [← hback]
    refine ⟨bestInBand_fst_nonneg frame _ _, ?_, ?_⟩ <;> omega

/-- Pointwise relation between the source and spec-side band data of a
frame: equal magnitudes, and equal pairs wherever the magnitude is
positive. -/
lemma frameData_rel (frame : List ℚ) (halfWindow : ℕ)
    (hnn : ∀ x ∈ frame, 0 ≤ x) :
    ∀ bands : List (ℕ × ℕ),
      List.Forall₂ (fun d e => d.1 = e.1 ∧ (0 < d.1 → d = e))
        (frameBandData frame halfWindow bands)
        (specFrameData frame halfWindow bands) := by
  intro bands
  induction bands with
  | nil =>
    exact List.Forall₂.nil
  | cons b bs ih =>
    unfold frameBandData specFrameData
    simp only [List.filterMap_cons]
    by_cases hskip : b.1 ≥ min (min b.2 halfWindow) frame.length
    · rw [if_pos hskip, if_pos hskip]
      exact ih
    · rw [if_neg hskip, if_neg hskip]
      refine List.Forall₂.cons ?_ ih
      exact bestInBand_rel frame b.1 _ hnn (by omega)

/-- Related band data have identical magnitude lists. -/
lemma forall₂_map_fst {l1 l2 : List (ℚ × ℕ)}
    (h : List.Forall₂ (fun d e => d.1 = e.1 ∧ (0 < d.1 → d = e)) l1 l2) :
    l1.map Prod.fst = l2.map Prod.fst := by
  induction h with
  | nil => rfl
  | cons hrel _ ih =>
    simp only [List.map_cons, ih, hrel.1]

/-- Filtering related band data above a non-negative threshold and mapping
them to peaks gives identical lists: a kept entry has positive magnitude,
where the relation forces equality. -/
lemma forall₂_filter_map_eq (avg : ℚ) (havg : 0 ≤ avg) (g : ℚ × ℕ → Peak)
    {l1 l2 : List (ℚ × ℕ)}
    (h : List.Forall₂ (fun d e => d.1 = e.1 ∧ (0 < d.1 → d = e)) l1 l2) :
    (l1.filter (fun d => decide (avg < d.1))).map g =
      (l2.filter (fun d => decide (avg < d.1))).map g := by
  induction h with
  | nil => rfl
  | cons hrel _ ih =>
    rename_i d e l1' l2' _
    simp only [List.filter_cons]
    by_cases hp : avg < d.1
    · have hp2 : avg < e.1 := hrel.1 ▸ hp
      rw [if_pos (by simpa using hp), if_pos (by simpa using hp2)]
      have hde : d = e := hrel.2 (lt_of_le_of_lt havg hp)
      simp only [List.map_cons, ih, hde]
    · have hp2 : ¬ avg < e.1 := hrel.1 ▸ hp
      rw [if_neg (by simpa using hp), if_neg (by simpa using hp2)]
      exact ih

/-- The per-frame peak lists of source and spec coincide on non-negative
magnitudes. -/
lemma framePeaks_eq_spec (frame : List ℚ) (frameIdx : ℕ)
    (frameDuration freqResolution : ℚ) (halfWindow : ℕ)
    (bands : List (ℕ × ℕ)) (hnn : ∀ x ∈ frame, 0 ≤ x) :
    framePeaks frame frameIdx frameDuration freqResolution halfWindow bands =
      specFramePeaks frame frameIdx frameDuration freqResolution halfWindow
        bands := by
  unfold framePeaks specFramePeaks
  have hrel := frameData_rel frame halfWindow hnn bands
  have hlen : (frameBandData frame halfWindow bands).length =
      (specFrameData frame halfWindow bands).length := hrel.length_eq
  have hfst := forall₂_map_fst hrel
  by_cases hemp : (frameBandData frame halfWindow bands).length = 0
  · rw [if_pos hemp, if_pos (hlen ▸ hemp)]
  · rw [if_neg hemp, if_neg (hlen ▸ hemp)]
    have havg : 0 ≤ ((frameBandData frame halfWindow bands).map Prod.fst).sum /
        ((frameBandData frame halfWindow bands).length : ℚ) := by
      apply div_nonneg
      · apply List.sum_nonneg
        intro x hx
        rw [List.mem_map] at hx
        obtain ⟨d, hd, rfl⟩ := hx
        exact (frameBandData_mem frame halfWindow bands d hd).1
      · exact Nat.cast_nonneg _
    rw [show ((specFrameData frame halfWindow bands).map Prod.fst).sum /
          ((specFrameData frame halfWindow bands).length : ℚ) =
        ((frameBandData frame halfWindow bands).map Prod.fst).sum /
          ((frameBandData frame halfWindow bands).length : ℚ) by
      rw [hfst, hlen]]
    exact forall₂_filter_map_eq _ havg _ hrel

/-- C4: on spectrograms with non-negative magnitudes (which FFT magnitudes
always are), `ExtractPeaks` behaves exactly as specified: per frame it emits
exactly one peak for each configured band (clamped to `WindowSize/2` and
the frame length, empty bands skipped) whose band maximum strictly exceeds
the mean of the frame's collected band maxima, bands at or below the mean
emit nothing, and the empty spectrogram yields the empty list. -/
theorem claim4_peak_selection (spectrogram : List (List ℚ))
    (audioDuration : ℚ) (sampleRate : ℕ) (cfg : FingerprintConfig)
    (hnn : ∀ f ∈ spectrogram, ∀ x ∈ f, 0 ≤ x) :
    ExtractPeaks spectrogram audioDuration sampleRate cfg =
      specExtractPeaks spectrogram audioDuration sampleRate cfg := by
  unfold ExtractPeaks specExtractPeaks
  by_cases hemp : spectrogram.length < 1
  · rw [if_pos hemp, if_pos hemp]
  · rw [if_neg hemp, if_neg hemp]
    apply List.flatMap_congr
    intro frameIdx hmem
    rw [List.mem_range] at hmem
    apply framePeaks_eq_spec
    intro x hx
    exact hnn _ (List.getD_eq_getElem spectrogram [] hmem ▸
      spectrogram.getElem_mem hmem) x hx

/-- C4 witness: source and spec peak extraction agree on a concrete
two-band spectrogram; the hypothesis (non-negative magnitudes) is
discharged on the concrete frame. -/
theorem claim4_witness :
    (∀ f ∈ [[(1 : ℚ), 3]], ∀ x ∈ f, 0 ≤ x) ∧
    ExtractPeaks [[(1 : ℚ), 3]] 1 8 ⟨1, 4, 4, 5000, 3, [(0, 1), (1, 2)], 0⟩ =
      specExtractPeaks [[(1 : ℚ), 3]] 1 8 ⟨1, 4, 4, 5000, 3, [(0, 1), (1, 2)], 0⟩ := by
  have hnn : ∀ f ∈ [[(1 : ℚ), 3]], ∀ x ∈ f, 0 ≤ x := by
    intro f hf x hx
    simp only [List.mem_singleton] at hf
    subst hf
    simp only [List.mem_cons, List.mem_singleton, List.not_mem_nil, or_false] at hx
    rcases hx with rfl | rfl <;> norm_num
  exact ⟨hnn, claim4_peak_selection _ _ _ _ hnn⟩

/-- C8: for every spectrogram whose frames have length `WindowSize/2`, every
non-negative audio duration, and every config with `DSPRatio ≥ 1`, every
peak emitted by `ExtractPeaks` satisfies `0 ≤ freq ≤ fs_eff/2` (with
`fs_eff = sampleRate / DSPRatio`) and `0 ≤ time ≤ audioDuration`. -/
theorem claim8_peak_bounds (spectrogram : List (List ℚ))
    (audioDuration : ℚ) (sampleRate : ℕ) (cfg : FingerprintConfig)
    (hframes : ∀ f ∈ spectrogram, f.length = cfg.WindowSize / 2)
    (hdur : 0 ≤ audioDuration) (hratio : 1 ≤ cfg.DSPRatio) :
    ∀ p ∈ ExtractPeaks spectrogram audioDuration sampleRate cfg,
      0 ≤ p.Freq ∧
      p.Freq ≤ ((sampleRate : ℚ) / (cfg.DSPRatio : ℚ)) / 2 ∧
      0 ≤ p.Time ∧ p.Time ≤ audioDuration := by
  intro p hp
  unfold ExtractPeaks at hp
  by_cases hemp : spectrogram.length < 1
  · rw [if_pos hemp] at hp
    simp at hp
  · rw [if_neg hemp] at hp
    rw [List.mem_flatMap] at hp
    obtain ⟨frameIdx, hkmem, hpin⟩ := hp
    rw [List.mem_range] at hkmem
    unfold framePeaks at hpin
    by_cases hd0 : (frameBandData (spectrogram.getD frameIdx [])
        (cfg.WindowSize / 2) cfg.FreqBands).length = 0
    · rw [if_pos hd0] at hpin
      simp at hpin
    · rw [if_neg hd0] at hpin
      simp only [List.mem_map] at hpin
      obtain ⟨d, hdf, hpeq⟩ := hpin
      rw [List.mem_filter] at hdf
      have hmem := frameBandData_mem _ _ _ d hdf.1
      have hfs : (0 : ℚ) ≤ (sampleRate : ℚ) / (cfg.DSPRatio : ℚ) :=
        div_nonneg (Nat.cast_nonneg _) (Nat.cast_nonneg _)
      have hW2 : 2 * d.2 + 2 ≤ cfg.WindowSize := by
        have h1 : d.2 + 1 ≤ cfg.WindowSize / 2 := hmem.2.1
        have h2 : 2 * (cfg.WindowSize / 2) ≤ cfg.WindowSize := Nat.mul_div_le _ 2
        omega
      have hWpos : (0 : ℚ) < (cfg.WindowSize : ℚ) := by
        have : (2 : ℕ) ≤ cfg.WindowSize := by omega
        exact_mod_cast Nat.lt_of_lt_of_le (by norm_num) this
      have hnpos : (0 : ℚ) < (spectrogram.length : ℚ) := by
        exact_mod_cast Nat.lt_of_lt_of_le (by omega) (le_refl _)
      rw [← hpeq]
      refine ⟨?_, ?_, ?_, ?_⟩
      · exact mul_nonneg (Nat.cast_nonneg _) (div_nonneg hfs hWpos.le)
      · have hcast : (2 : ℚ) * (d.2 : ℚ) + 2 ≤ (cfg.WindowSize : ℚ) := by
          exact_mod_cast hW2
        have hhalf : (d.2 : ℚ) ≤ (cfg.WindowSize : ℚ) / 2 := by linarith
        calc (d.2 : ℚ) *
              ((sampleRate : ℚ) / (cfg.DSPRatio : ℚ) / (cfg.WindowSize : ℚ))
            ≤ (cfg.WindowSize : ℚ) / 2 *
              ((sampleRate : ℚ) / (cfg.DSPRatio : ℚ) / (cfg.WindowSize : ℚ)) :=
              mul_le_mul_of_nonneg_right hhalf (div_nonneg hfs hWpos.le)
          _ = (sampleRate : ℚ) / (cfg.DSPRatio : ℚ) / 2 := by
              field_simp
              ring
      · exact mul_nonneg (Nat.cast_nonneg _) (div_nonneg hdur hnpos.le)
      · have hk : (frameIdx : ℚ) ≤ (spectrogram.length : ℚ) := by
          exact_mod_cast Nat.le_of_lt hkmem
        calc (frameIdx : ℚ) * (audioDuration / (spectrogram.length : ℚ))
            ≤ (spectrogram.length : ℚ) * (audioDuration / (spectrogram.length : ℚ)) :=
              mul_le_mul_of_nonneg_right hk (div_nonneg hdur hnpos.le)
          _ = audioDuration := by
              field_simp

/-- C8 witness: the bounds instantiated on a concrete one-frame spectrogram
with window size 4, sample rate 8 and unit duration. -/
theorem claim8_witness :
    (∀ f ∈ [[(1 : ℚ), 3]], f.length = 4 / 2) ∧ (0 : ℚ) ≤ 1 ∧ (1 : ℕ) ≤ 1 ∧
    ∀ p ∈ ExtractPeaks [[(1 : ℚ), 3]] 1 8 ⟨1, 4, 4, 5000, 3, [(0, 1), (1, 2)], 0⟩,
      0 ≤ p.Freq ∧ p.Freq ≤ ((8 : ℚ) / ((1 : ℕ) : ℚ)) / 2 ∧
      0 ≤ p.Time ∧ p.Time ≤ 1 := by
  have hframes : ∀ f ∈ [[(1 : ℚ), 3]], f.length = 4 / 2 := by
    intro f hf
    simp only [List.mem_singleton] at hf
    subst hf
    rfl
  exact ⟨hframes, by norm_num, by norm_num,
    claim8_peak_bounds [[(1 : ℚ), 3]] 1 8 ⟨1, 4, 4, 5000, 3, [(0, 1), (1, 2)], 0⟩
      hframes (by norm_num) (by norm_num)⟩

/-- Every peak of a frame block carries that frame's time stamp. -/
lemma framePeaks_time (frame : List ℚ) (frameIdx : ℕ)
    (frameDuration freqResolution : ℚ) (halfWindow : ℕ)
    (bands : List (ℕ × ℕ)) :
    ∀ p ∈ framePeaks frame frameIdx frameDuration freqResolution halfWindow
        bands, p.Time = (frameIdx : ℚ) * frameDuration := by
  intro p hp
  unfold framePeaks at hp
  by_cases hd0 : (frameBandData frame halfWindow bands).length = 0
  · rw [if_pos hd0] at hp
    simp at hp
  · rw [if_neg hd0] at hp
    simp only [List.mem_map] at hp
    obtain ⟨d, _, hpeq⟩ := hp
    rw [← hpeq]

/-- A list whose members share one time stamp is time-sorted. -/
lemma pairwise_of_const_time (t : ℚ) :
    ∀ l : List Peak, (∀ p ∈ l, p.Time = t) →
      l.Pairwise (fun p q => p.Time ≤ q.Time) := by
  intro l
  induction l with
  | nil =>
    intro _
    exact List.Pairwise.nil
  | cons x xs ih =>
    intro h
    refine List.Pairwise.cons ?_ (ih fun p hp => h p (by simp [hp]))
    intro q hq
    rw [h x (by simp), h q (by simp [hq])]

/-- Concatenating per-frame blocks in frame order is time-sorted whenever
block `k` carries time `k·c` for a non-negative frame duration `c`. -/
lemma pairwise_flatMap_range (f : ℕ → List Peak) (c : ℚ) (hc : 0 ≤ c)
    (ht : ∀ k, ∀ p ∈ f k, p.Time = (k : ℚ) * c) :
    ∀ n : ℕ, ((List.range n).flatMap f).Pairwise (fun p q => p.Time ≤ q.Time) := by
  intro n
  induction n with
  | zero =>
    exact List.Pairwise.nil
  | succ n ih =>
    rw [List.range_succ, List.flatMap_append]
    rw [List.pairwise_append]
    refine ⟨ih, ?_, ?_⟩
    · simp only [List.flatMap_cons, List.flatMap_nil, List.append_nil]
      exact pairwise_of_const_time ((n : ℚ) * c) (f n) (ht n)
    · intro a ha b hb
      rw [List.mem_flatMap] at ha
      obtain ⟨k, hk, hak⟩ := ha
      rw [List.mem_range] at hk
      simp only [List.flatMap_cons, List.flatMap_nil, List.append_nil] at hb
      rw [ht k a hak, ht n b hb]
      have hkn : (k : ℚ) ≤ (n : ℚ) := by
        exact_mod_cast Nat.le_of_lt hk
      exact mul_le_mul_of_nonneg_right hkn hc

/-- C10: for every spectrogram and non-negative audio duration the peak list
returned by `ExtractPeaks` is monotone non-decreasing in time (peaks are
emitted frame-major with time `frame_idx · frame_duration` and
`frame_duration ≥ 0`), which is the ordering the fingerprinter assumes for
its non-negative time deltas. -/
theorem claim10_peaks_sorted (spectrogram : List (List ℚ))
    (audioDuration : ℚ) (sampleRate : ℕ) (cfg : FingerprintConfig)
    (hdur : 0 ≤ audioDuration) :
    (ExtractPeaks spectrogram audioDuration sampleRate cfg).Pairwise
      (fun p q => p.Time ≤ q.Time) := by
  unfold ExtractPeaks
  by_cases hemp : spectrogram.length < 1
  · rw [if_pos hemp]
    exact List.Pairwise.nil
  · rw [if_neg hemp]
    have hnpos : (0 : ℚ) ≤ (spectrogram.length : ℚ) := Nat.cast_nonneg _
    apply pairwise_flatMap_range
    · exact div_nonneg hdur hnpos
    · intro k p hp
      exact framePeaks_time _ _ _ _ _ _ p hp

/-- C10 witness: the ordering theorem instantiated on a concrete two-frame
spectrogram with unit duration. -/
theorem claim10_witness :
    (0 : ℚ) ≤ 1 ∧
    (ExtractPeaks [[(1 : ℚ), 3], [(4 : ℚ), 2]] 1 8
        ⟨1, 4, 4, 5000, 3, [(0, 1), (1, 2)], 0⟩).Pairwise
      (fun p q => p.Time ≤ q.Time) :=
  ⟨by norm_num,
    claim10_peaks_sorted [[(1 : ℚ), 3], [(4 : ℚ), 2]] 1 8
      ⟨1, 4, 4, 5000, 3, [(0, 1), (1, 2)], 0⟩ (by norm_num)⟩

/-! Indexing driver (`processAndSave`, server `main.go` lines 81-116) and the
chunk loop of `FingerprintAudioChunked` (`fingerprint.go` lines 80-127).
The `db` package is not part of the analysed sources; its three operations
are modelled from spec §4.8. -/

/-- Modelled from the spec: the persistent store state visible to the core,
a set of registered work ids (`register_work`) plus the stored fingerprint
records (`store_fingerprints`). -/
structure DBState where
  songs : List ℕ
  fingerprints : List (ℕ × Couple)
deriving DecidableEq, Repr

/-- Modelled from the spec: `register_work` atomically allocates a fresh
32-bit id.  Freshness is realised by exceeding every registered id. -/
def freshID (db : DBState) : ℕ := db.songs.foldr max 0 + 1

/-- Modelled from the spec: registering a work adds its freshly allocated id
to the store. -/
def RegisterSong (db : DBState) (id : ℕ) : DBState :=
  { db with songs := db.songs ++ [id] }

/-- Modelled from the spec: `delete_work` removes the work's metadata and
all fingerprints carrying its id. -/
def DeleteSongByID (db : DBState) (id : ℕ) : DBState :=
  { songs := db.songs.filter (fun s => s != id),
    fingerprints := db.fingerprints.filter (fun e => e.2.SongID != id) }

/-- Modelled from the spec: `store_fingerprints` appends the records of one
indexing operation. -/
def StoreFingerprints (db : DBState) (fps : List (ℕ × Couple)) : DBState :=
  { db with fingerprints := db.fingerprints ++ fps }

/-- Translation of `processAndSave` (server `main.go` lines 81-116): register
the work, fingerprint the file, store the fingerprints; on fingerprinting or
storage failure delete the registered work and return the error.  The
outcome of the chunked fingerprinter (which shells out to ffmpeg) and of the
store write are inputs of the model. -/
def processAndSave (db : DBState) (registerOK : Bool)
    (fpResult : Except String (List (ℕ × Couple))) (storeOK : Bool) :
    DBState × Except String (ℕ × ℕ) :=
  if registerOK = false then (db, Except.error "failed to register entry")
  else
    let songID := freshID db
    let db1 := RegisterSong db songID
    match fpResult with
    | Except.error e =>
      (DeleteSongByID db1 songID, Except.error ("failed to fingerprint: " ++ e))
    | Except.ok fingerprint =>
      if storeOK = false then
        (DeleteSongByID db1 songID, Except.error "failed to store fingerprints")
      else
        (StoreFingerprints db1 fingerprint, Except.ok (songID, fingerprint.length))

/-- Merge of a per-chunk fingerprint map into the accumulator
(`utils.ExtendMap`, modelled from the spec: last writer wins per
address). -/
def extendFP (acc chunk : List (ℕ × Couple)) : List (ℕ × Couple) :=
  chunk.foldl (fun m e => upsert m e.1 e.2) acc

/-- The chunk loop of `FingerprintAudioChunked`: each chunk is fingerprinted
and merged; the first failing chunk aborts the whole operation with its
error and no partial map (`fingerprint.go` lines 92-116). -/
def chunkLoop (acc : List (ℕ × Couple)) :
    List (Except String (List (ℕ × Couple))) →
      Except String (List (ℕ × Couple))
  | [] => Except.ok acc
  | Except.error e :: _ => Except.error e
  | Except.ok c :: rest => chunkLoop (extendFP acc c) rest

/-- Every registered id is bounded by the running maximum. -/
lemma le_foldr_max (l : List ℕ) : ∀ x ∈ l, x ≤ l.foldr max 0 := by
  induction l with
  | nil =>
    intro x hx
    simp at hx
  | cons a l ih =>
    intro x hx
    rcases List.mem_cons.mp hx with rfl | hx'
    · exact le_max_left _ _
    · exact le_trans (ih x hx') (le_max_right _ _)

/-- The freshly allocated id is not already registered. -/
lemma freshID_not_mem (db : DBState) : freshID db ∉ db.songs := by
  intro hmem
  have := le_foldr_max db.songs _ hmem
  unfold freshID at this
  omega

/-- C6: indexing is all-or-nothing.  If registration, fingerprinting or
fingerprint storage fails, `processAndSave` returns an error and leaves a
well-formed store (every fingerprint belongs to a registered work) exactly
as it was: the registered work is deleted and no partial fingerprint map is
committed.  Moreover any per-chunk failure inside the chunk loop of
`FingerprintAudioChunked` aborts the whole operation with an error carrying
no partial results. -/
theorem claim6_all_or_nothing :
    (∀ (db : DBState) (registerOK : Bool)
        (fpResult : Except String (List (ℕ × Couple))) (storeOK : Bool),
      (∀ e ∈ db.fingerprints, e.2.SongID ∈ db.songs) →
      (registerOK = false ∨ (∃ msg, fpResult = Except.error msg) ∨
        storeOK = false) →
      (processAndSave db registerOK fpResult storeOK).1 = db ∧
      ∃ msg, (processAndSave db registerOK fpResult storeOK).2 =
        Except.error msg) ∧
    (∀ (acc : List (ℕ × Couple))
        (chunkResults : List (Except String (List (ℕ × Couple)))),
      (∃ r ∈ chunkResults, ∃ msg, r = Except.error msg) →
      ∃ msg, chunkLoop acc chunkResults = Except.error msg) := by
  constructor
  · intro db registerOK fpResult storeOK hwf hfail
    have hfresh := freshID_not_mem db
    have hdel : DeleteSongByID (RegisterSong db (freshID db)) (freshID db) = db := by
      unfold DeleteSongByID RegisterSong
      have hsongs : (db.songs ++ [freshID db]).filter
          (fun s => s != freshID db) = db.songs := by
        rw [List.filter_append]
        have h1 : db.songs.filter (fun s => s != freshID db) = db.songs := by
          apply List.filter_eq_self.mpr
          intro a ha
          simp only [bne_iff_ne, ne_eq, decide_eq_true_eq]
          intro heq
          exact hfresh (heq ▸ ha)
        have h2 : ([freshID db] : List ℕ).filter (fun s => s != freshID db) = [] := by
          simp
        rw [h1, h2, List.append_nil]
      have hfps : db.fingerprints.filter
          (fun e => e.2.SongID != freshID db) = db.fingerprints := by
        apply List.filter_eq_self.mpr
        intro e he
        simp only [bne_iff_ne, ne_eq, decide_eq_true_eq]
        intro heq
        exact hfresh (heq ▸ hwf e he)
      rw [hsongs, hfps]
    match registerOK, fpResult, storeOK with
    | false, _, _ =>
      unfold processAndSave
      exact ⟨rfl, "failed to register entry", rfl⟩
    | true, Except.error e, _ =>
      unfold processAndSave
      simp only [Bool.true_eq_false, if_false]
      exact ⟨hdel, "failed to fingerprint: " ++ e, rfl⟩
    | true, Except.ok fp, false =>
      unfold processAndSave
      simp only [Bool.true_eq_false, if_false, if_true]
      exact ⟨hdel, "failed to store fingerprints", rfl⟩
    | true, Except.ok fp, true =>
      rcases hfail with h | ⟨msg, hmsg⟩ | h
      · exact absurd h (by simp)
      · exact absurd hmsg (by simp)
      · exact absurd h (by simp)
  · intro acc chunkResults hfail
    induction chunkResults generalizing acc with
    | nil =>
      obtain ⟨r, hr, _⟩ := hfail
      simp at hr
    | cons c rest ih =>
      match c with
      | Except.error e =>
        exact ⟨e, rfl⟩
      | Except.ok m =>
        obtain ⟨r, hr, msg, hmsg⟩ := hfail
        rcases List.mem_cons.mp hr with rfl | hr'
        · exact absurd hmsg (by simp)
        · exact ih (extendFP acc m) ⟨r, hr', msg, hmsg⟩

/-- C6 witness: a failing fingerprint run against an empty store leaves the
store unchanged and reports an error, and a chunk list containing an error
aborts the chunk loop. -/
theorem claim6_witness :
    ((∀ e ∈ (⟨[], []⟩ : DBState).fingerprints, e.2.SongID ∈
        (⟨[], []⟩ : DBState).songs) ∧
      (∃ msg, (Except.error msg : Except String (List (ℕ × Couple))) =
        Except.error "boom")) ∧
    ((processAndSave ⟨[], []⟩ true (Except.error "boom") true).1 = ⟨[], []⟩ ∧
      ∃ msg, (processAndSave ⟨[], []⟩ true (Except.error "boom") true).2 =
        Except.error msg) ∧
    (∃ msg, chunkLoop [] [Except.ok [], Except.error "bad chunk"] =
      Except.error msg) := by
  refine ⟨⟨by simp, "boom", rfl⟩, ?_, ?_⟩
  · exact claim6_all_or_nothing.1 ⟨[], []⟩ true (Except.error "boom") true
      (by simp) (Or.inr (Or.inl ⟨"boom", rfl⟩))
  · exact claim6_all_or_nothing.2 []
      [Except.ok [], Except.error "bad chunk"]
      ⟨Except.error "bad chunk", by simp, "bad chunk", rfl⟩

/-- C7: decoding the three bit fields out of an address produced by
`createAddress` recovers the anchor bin, target bin and time delta modulo
their field widths.  The hypotheses restrict to the domain on which the Go
`uint32` conversions are defined (non-negative frequencies, target not
earlier than anchor). -/
theorem claim7_address_roundtrip (anchor target : Peak)
    (hfa : 0 ≤ anchor.Freq) (hft : 0 ≤ target.Freq)
    (ht : anchor.Time ≤ target.Time) :
    addrAnchorBin (createAddress anchor target) =
      (Int.floor (anchor.Freq / 10)).toNat % 2 ^ 9 ∧
    addrTargetBin (createAddress anchor target) =
      (Int.floor (target.Freq / 10)).toNat % 2 ^ 9 ∧
    addrDelta (createAddress anchor target) =
      (Int.floor ((target.Time - anchor.Time) * 1000)).toNat % 2 ^ 14 := by
  rw [createAddress_eq]
  unfold addrAnchorBin addrTargetBin addrDelta f64ToU32
  simp only [Nat.shiftRight_eq_div_pow, Nat.and_pow_two_sub_one_eq_mod]
  set x := (Int.floor (anchor.Freq / 10)).toNat % 2 ^ 9 with hx
  set y := (Int.floor (target.Freq / 10)).toNat % 2 ^ 9 with hy
  set z := (Int.floor ((target.Time - anchor.Time) * 1000)).toNat % 2 ^ 14 with hz
  have hxlt : x < 2 ^ 9 := Nat.mod_lt _ (by norm_num)
  have hylt : y < 2 ^ 9 := Nat.mod_lt _ (by norm_num)
  have hzlt : z < 2 ^ 14 := Nat.mod_lt _ (by norm_num)
  refine ⟨?_, ?_, ?_⟩ <;> omega

/-- C7 witness: the round-trip theorem instantiated at the S1 peaks. -/
theorem claim7_witness :
    (0 : ℚ) ≤ (443.2 : ℚ) ∧ (0 : ℚ) ≤ (880 : ℚ) ∧ (1 : ℚ) ≤ (1.25 : ℚ) ∧
    (addrAnchorBin (createAddress ⟨443.2, 1⟩ ⟨880, 1.25⟩) =
      (Int.floor ((443.2 : ℚ) / 10)).toNat % 2 ^ 9 ∧
    addrTargetBin (createAddress ⟨443.2, 1⟩ ⟨880, 1.25⟩) =
      (Int.floor ((880 : ℚ) / 10)).toNat % 2 ^ 9 ∧
    addrDelta (createAddress ⟨443.2, 1⟩ ⟨880, 1.25⟩) =
      (Int.floor (((1.25 : ℚ) - 1) * 1000)).toNat % 2 ^ 14) :=
  ⟨by norm_num, by norm_num, by norm_num,
    claim7_address_roundtrip ⟨443.2, 1⟩ ⟨880, 1.25⟩
      (by norm_num) (by norm_num) (by norm_num)⟩

end SeekTune
